import Mathlib

/-!
Shallow embedding of the guessing-game coordinator in `server.py`
(class `DistributedGameServer`).

Modelling conventions:
* a websocket connection is identified by a `Nat`;
* `self.players : Dict[str, Player]` (insertion ordered) is an
  association list `List Player` whose keys are the `name` fields;
* `self.connected_clients : Set[...]` is a `List Nat` kept free of
  duplicates by the only insertion point (`register_player`); its list
  order refines the unspecified set iteration order;
* network sends are recorded as an output list `List Out`; a direct
  `send_message` whose peer is gone (`ConnectionClosed`) is swallowed,
  a failed send inside `broadcast_message` puts the socket into the
  `disconnected` set.  Failure of a socket is modelled by a static
  oracle `fail : Nat → Bool` (a stale peer stays stale);
* `datetime.now()` is a `now : Nat` parameter; `broadcast_message`
  stamps the event with it (`Out.broadcastEv _ ts _`);
* `random.randint` in `start_new_round` is an input parameter, with
  the range condition available as a hypothesis where needed;
* the mutual recursion `broadcast_message` / `remove_player` is given
  a fuel parameter (`none` = out of fuel); `fuelBound` below is proved
  sufficient;
* the fixed Polish message strings are abstracted into the
  constructors of `ErrReason` / `HintDir` (one constructor per string
  constant in the source); structured payload fields are kept.
-/

/-- Model of the `Player` dataclass (fields in source order). -/
structure Player where
  websocket : Nat
  name : String
  score : Nat
  guesses : Nat
deriving DecidableEq

/-- Model of the `GameState` dataclass (fields in source order). -/
structure GameState where
  secret_number : Int
  min_range : Int
  max_range : Int
  max_guesses : Nat
  is_active : Bool
  winner : Option String
  round_number : Nat
deriving DecidableEq

/-- The mutable fields of `DistributedGameServer`. -/
structure ServerState where
  players : List Player
  connected_clients : List Nat
  game_state : GameState
deriving DecidableEq

/-- One constructor per distinct `error` message string in the source. -/
inductive ErrReason where
  | notActive
  | nameTaken
  | emptyName
  | nonIntGuess
  | outOfRange
  | badJson
deriving DecidableEq

/-- The hint strings `za duza` / `za mala` of `handle_guess`. -/
inductive HintDir where
  | tooHigh
  | tooLow
deriving DecidableEq

/-- Outbound message shapes, one constructor per `type` tag. -/
inductive Msg where
  | errorMsg (reason : ErrReason)
  | joined (minR : Int) (maxR : Int) (maxGuesses : Nat) (round : Nat)
  | playerJoined (player : String) (total : Nat)
  | gameWon (winner : String) (secret : Int) (guessesTaken : Nat) (points : Nat)
  | outOfGuesses (secret : Int)
  | guessResult (guess : Int) (hint : HintDir) (remaining : Nat)
  | playerGuessed (player : String) (guess : Int) (remaining : Nat)
  | newRound (round : Nat)
  | playerLeft (player : String) (total : Nat)
  | gameStateMsg (round : Nat) (isActive : Bool) (board : List (String × Nat)) (total : Nat)
deriving DecidableEq

/-- Observable network activity: a direct `send_message` delivery, or one
`broadcast_message` pass (stamped message plus the sockets it reached). -/
inductive Out where
  | sent (ws : Nat) (m : Msg)
  | broadcastEv (m : Msg) (ts : Nat) (recipients : List Nat)
deriving DecidableEq

/-- `self.players[name]` lookup: first entry with the given key. -/
def lookupPlayer : List Player → String → Option Player
  | [], _ => none
  | p :: ps, n => if p.name = n then some p else lookupPlayer ps n

/-- In-place mutation of the player stored under `name`. -/
def updatePlayer (ps : List Player) (n : String) (f : Player → Player) : List Player :=
  ps.map fun p => if p.name = n then f p else p

/-- The `for name, player in self.players.items(): if player.websocket == websocket`
search of `remove_player`: first player bound to the socket. -/
def findByWs : List Player → Nat → Option String
  | [], _ => none
  | p :: ps, ws => if p.websocket = ws then some p.name else findByWs ps ws

/-- `send_message`: delivery is dropped silently when the peer is gone. -/
def sendTo (fail : Nat → Bool) (ws : Nat) (m : Msg) : List Out :=
  if fail ws then [] else [Out.sent ws m]

/-- Stable descending insertion by score: the effect of the stable Python call
`sorted(..., key=lambda x: x[1], reverse=True)` in `send_game_state`. -/
def insertDesc (p : String × Nat) : List (String × Nat) → List (String × Nat)
  | [] => [p]
  | q :: qs => if p.2 < q.2 then q :: insertDesc p qs else p :: q :: qs

/-- Stable descending sort by score. -/
def sortDesc : List (String × Nat) → List (String × Nat)
  | [] => []
  | p :: ps => insertDesc p (sortDesc ps)

/-- The leaderboard computed in `send_game_state`. -/
def leaderboard (ps : List Player) : List (String × Nat) :=
  sortDesc (ps.map fun p => (p.name, p.score))

mutual

/-- `remove_player`: discard the socket from `connected_clients`, delete the
first player bound to it (if any) and broadcast `player_left`. -/
def removePlayerF (fail : Nat → Bool) (now : Nat) :
    Nat → ServerState → Nat → Option (ServerState × List Out)
  | 0, _, _ => none
  | fuel + 1, st, ws =>
    let st1 : ServerState :=
      { st with connected_clients := st.connected_clients.filter (fun c => c != ws) }
    match findByWs st1.players ws with
    | none => some (st1, [])
    | some n =>
      let st2 : ServerState :=
        { st1 with players := st1.players.filter (fun p => p.name != n) }
      broadcastF fail now fuel st2 none (Msg.playerLeft n st2.players.length)

/-- `broadcast_message`: early return on an empty registry, otherwise stamp
the message, send it to every socket except `exclude`, collect the failed
sockets and remove each of them after the fan-out pass. -/
def broadcastF (fail : Nat → Bool) (now : Nat) :
    Nat → ServerState → Option Nat → Msg → Option (ServerState × List Out)
  | 0, _, _, _ => none
  | fuel + 1, st, excl, m =>
    if st.connected_clients = [] then some (st, [])
    else
      let targets := st.connected_clients.filter (fun ws => excl != some ws)
      let delivered := targets.filter (fun ws => !fail ws)
      let disconnected := targets.filter (fun ws => fail ws)
      match removeAllF fail now fuel st disconnected with
      | none => none
      | some (st2, outs) => some (st2, Out.broadcastEv m now delivered :: outs)

/-- The `for websocket in disconnected: await self.remove_player(websocket)`
loop at the end of `broadcast_message`. -/
def removeAllF (fail : Nat → Bool) (now : Nat) :
    Nat → ServerState → List Nat → Option (ServerState × List Out)
  | 0, _, _ => none
  | _ + 1, st, [] => some (st, [])
  | fuel + 1, st, ws :: rest =>
    match removePlayerF fail now fuel st ws with
    | none => none
    | some (st1, o1) =>
      match removeAllF fail now fuel st1 rest with
      | none => none
      | some (st2, o2) => some (st2, o1 ++ o2)

end

/-- `send_game_state`: reply with round number, activity flag, leaderboard
and player count. -/
def send_game_state (fail : Nat → Bool) (st : ServerState) (ws : Nat) : List Out :=
  sendTo fail ws
    (Msg.gameStateMsg st.game_state.round_number st.game_state.is_active
      (leaderboard st.players) st.players.length)

/-- `register_player`: reject a taken name with an `error` reply, otherwise
create the player (score 0, guesses 0), register the socket, send the
`joined` reply, broadcast `player_joined` to everyone else and send the
game state to the new player.  The `Bool` is the return value in the source. -/
def register_player (fail : Nat → Bool) (now fuel : Nat) (st : ServerState)
    (ws : Nat) (n : String) : Option (ServerState × List Out × Bool) :=
  if st.players.any (fun p => p.name = n) then
    some (st, sendTo fail ws (Msg.errorMsg ErrReason.nameTaken), false)
  else
    let newP : Player := { websocket := ws, name := n, score := 0, guesses := 0 }
    let st1 : ServerState :=
      { st with players := st.players ++ [newP],
                connected_clients :=
                  if ws ∈ st.connected_clients then st.connected_clients
                  else st.connected_clients ++ [ws] }
    let o1 := sendTo fail ws
      (Msg.joined st1.game_state.min_range st1.game_state.max_range
        st1.game_state.max_guesses st1.game_state.round_number)
    match broadcastF fail now fuel st1 (some ws) (Msg.playerJoined n st1.players.length) with
    | none => none
    | some (st2, o2) =>
      some (st2, o1 ++ o2 ++ send_game_state fail st2 ws, true)

/-- `handle_guess`: reject when the round is inactive, ignore unknown player
names, increment the attempt counter, then branch on win / exhaustion /
hint exactly as the source does.  The `asyncio.create_task(start_new_round)`
scheduled on a win is a deferred action, modelled as the separate
`CoordOp.newRound` step. -/
def handle_guess (fail : Nat → Bool) (now fuel : Nat) (st : ServerState)
    (ws : Nat) (player_name : String) (guess : Int) : Option (ServerState × List Out) :=
  if st.game_state.is_active = false then
    some (st, sendTo fail ws (Msg.errorMsg ErrReason.notActive))
  else
    match lookupPlayer st.players player_name with
    | none => some (st, [])
    | some player =>
      let g1 := player.guesses + 1
      let stInc : ServerState :=
        { st with players := updatePlayer st.players player_name (fun p => { p with guesses := g1 }) }
      if guess = st.game_state.secret_number then
        let pts := max 1 (st.game_state.max_guesses - g1 + 1)
        let stWin : ServerState :=
          { stInc with
            players := updatePlayer stInc.players player_name (fun p => { p with score := p.score + pts }),
            game_state := { stInc.game_state with winner := some player_name, is_active := false } }
        broadcastF fail now fuel stWin none
          (Msg.gameWon player_name st.game_state.secret_number g1 pts)
      else if st.game_state.max_guesses ≤ g1 then
        some (stInc, sendTo fail ws (Msg.outOfGuesses st.game_state.secret_number))
      else
        let hint : HintDir :=
          if st.game_state.secret_number < guess then HintDir.tooHigh else HintDir.tooLow
        let remaining := st.game_state.max_guesses - g1
        let o1 := sendTo fail ws (Msg.guessResult guess hint remaining)
        match broadcastF fail now fuel stInc (some ws)
            (Msg.playerGuessed player_name guess remaining) with
        | none => none
        | some (st2, o2) => some (st2, o1 ++ o2)

/-- `start_new_round` (after its 5 second sleep): install the freshly drawn
secret, reactivate the round, clear the winner, bump the round number,
reset every attempt counter and broadcast `new_round`.  `newSecret` stands
for the `random.randint(min_range, max_range)` draw. -/
def start_new_round (fail : Nat → Bool) (now fuel : Nat) (st : ServerState)
    (newSecret : Int) : Option (ServerState × List Out) :=
  let st1 : ServerState :=
    { st with
      players := st.players.map (fun p => { p with guesses := 0 }),
      game_state :=
        { st.game_state with
          secret_number := newSecret,
          is_active := true,
          winner := none,
          round_number := st.game_state.round_number + 1 } }
  broadcastF fail now fuel st1 none (Msg.newRound st1.game_state.round_number)

/-- One decoded inbound message of the `handle_client` loop, or the close of
the channel (the `finally` path). -/
inductive Event where
  | join (n : String)
  | guessEv (player : String) (value : Int)
  | guessNonInt (player : String)
  | getState
  | badPayload
  | unknownAction
  | close
deriving DecidableEq

/-- One iteration of the `handle_client` dispatch, including the caller-side
validation (empty name, integer check, range check) done before the core
calls. -/
def handle_event (fail : Nat → Bool) (now fuel : Nat) (st : ServerState)
    (ws : Nat) : Event → Option (ServerState × List Out)
  | Event.join n =>
    if n.trim = "" then some (st, sendTo fail ws (Msg.errorMsg ErrReason.emptyName))
    else
      match register_player fail now fuel st ws n.trim with
      | none => none
      | some (st2, outs, _) => some (st2, outs)
  | Event.guessEv player v =>
    if st.game_state.min_range ≤ v ∧ v ≤ st.game_state.max_range then
      handle_guess fail now fuel st ws player v
    else some (st, sendTo fail ws (Msg.errorMsg ErrReason.outOfRange))
  | Event.guessNonInt _ => some (st, sendTo fail ws (Msg.errorMsg ErrReason.nonIntGuess))
  | Event.getState => some (st, send_game_state fail st ws)
  | Event.badPayload => some (st, sendTo fail ws (Msg.errorMsg ErrReason.badJson))
  | Event.unknownAction => some (st, [])
  | Event.close => removePlayerF fail now fuel st ws

/-- An operation of the coordinator: a session-loop event on some socket, or
the deferred new-round task firing with its drawn secret. -/
inductive CoordOp where
  | ev (ws : Nat) (e : Event)
  | newRound (secret : Int)
deriving DecidableEq

/-- Dispatch of a coordinator operation. -/
def coordStep (fail : Nat → Bool) (now fuel : Nat) (st : ServerState) :
    CoordOp → Option (ServerState × List Out)
  | CoordOp.ev ws e => handle_event fail now fuel st ws e
  | CoordOp.newRound s => start_new_round fail now fuel st s

/-- A sequence of `register_player` calls (used for the join-sequence claim). -/
def runJoins (fail : Nat → Bool) (now fuel : Nat) :
    ServerState → List (Nat × String) → Option ServerState
  | st, [] => some st
  | st, (ws, n) :: rest =>
    match register_player fail now fuel st ws n with
    | none => none
    | some (st2, _, _) => runJoins fail now fuel st2 rest

/-- The keys of the player directory. -/
def namesOf (ps : List Player) : List String := ps.map fun p => p.name

/-- Directory invariant: player names are pairwise distinct (dict keys). -/
def NodupNames (ps : List Player) : Prop := (namesOf ps).Nodup

/-- At most one player is bound to any given socket. -/
def UniqueWs (ps : List Player) : Prop :=
  ∀ p, p ∈ ps → ∀ q, q ∈ ps → p.websocket = q.websocket → p = q

/-- The players named by `player_left` broadcast passes in an output list. -/
def plNames (outs : List Out) : List String :=
  outs.filterMap fun o =>
    match o with
    | Out.broadcastEv (Msg.playerLeft n _) _ _ => some n
    | _ => none

/-- Number of `player_left` broadcast passes naming `n`. -/
def cPL (n : String) (outs : List Out) : Nat := (plNames outs).count n

/-- Contribution of a single broadcast message to `cPL n`. -/
def plh (n : String) (m : Msg) : Nat :=
  match m with
  | Msg.playerLeft k _ => if k = n then 1 else 0
  | _ => 0

/-- Termination potential of the cleanup recursion: a socket removal or a
directory deletion strictly decreases it. -/
def phi (st : ServerState) : Nat := st.connected_clients.length + st.players.length

/-- Fuel sufficient for the cleanup recursion at potential `k`
(proved below in `adequacy`). -/
def fuelBound : Nat → Nat
  | 0 => 2
  | k + 1 => 2 + 2 * (k + 1) + (k + 1) * fuelBound k

/-- Failure oracle of a healthy network: no send ever fails. -/
def noFail : Nat → Bool := fun _ => false

theorem findByWs_some {ps : List Player} {ws : Nat} {n : String}
    (h : findByWs ps ws = some n) : ∃ p, p ∈ ps ∧ p.name = n ∧ p.websocket = ws := by
  induction ps with
  | nil => simp [findByWs] at h
  | cons p rest ih =>
    by_cases hw : p.websocket = ws
    · refine ⟨p, List.mem_cons_self .., ?_, hw⟩
      simp [findByWs, hw] at h
      exact h
    · simp [findByWs, hw] at h
      obtain ⟨q, hq, hqn, hqw⟩ := ih h
      exact ⟨q, List.mem_cons_of_mem _ hq, hqn, hqw⟩

theorem findByWs_none {ps : List Player} {ws : Nat}
    (h : findByWs ps ws = none) : ∀ p, p ∈ ps → p.websocket ≠ ws := by
  induction ps with
  | nil => intro p hp; simp at hp
  | cons p rest ih =>
    by_cases hw : p.websocket = ws
    · simp [findByWs, hw] at h
    · simp [findByWs, hw] at h
      intro q hq
      rcases List.mem_cons.mp hq with rfl | hq2
      · exact hw
      · exact ih h q hq2

/-- State evolution of the cleanup recursion: the game state is untouched, and
both the directory and the registry only lose entries. -/
theorem stateEvo (fail : Nat → Bool) (now : Nat) : ∀ fuel : Nat,
    (∀ st ws r, removePlayerF fail now fuel st ws = some r →
      r.1.game_state = st.game_state ∧ r.1.players.Sublist st.players ∧
        r.1.connected_clients.Sublist st.connected_clients) ∧
    (∀ st excl m r, broadcastF fail now fuel st excl m = some r →
      r.1.game_state = st.game_state ∧ r.1.players.Sublist st.players ∧
        r.1.connected_clients.Sublist st.connected_clients) ∧
    (∀ st pending r, removeAllF fail now fuel st pending = some r →
      r.1.game_state = st.game_state ∧ r.1.players.Sublist st.players ∧
        r.1.connected_clients.Sublist st.connected_clients) := by
  intro fuel
  induction fuel with
  | zero =>
    refine ⟨?_, ?_, ?_⟩ <;> intro st
    · intro ws r h; simp [removePlayerF] at h
    · intro excl m r h; simp [broadcastF] at h
    · intro pending r h; simp [removeAllF] at h
  | succ fuel ih =>
    obtain ⟨ihR, ihB, ihA⟩ := ih
    refine ⟨?_, ?_, ?_⟩
    · -- removePlayerF
      intro st ws r h
      rw [removePlayerF] at h
      cases hf : findByWs st.players ws with
      | none =>
        simp only [hf] at h
        cases h
        exact ⟨rfl, List.Sublist.refl _, List.filter_sublist _⟩
      | some n =>
        simp only [hf] at h
        obtain ⟨hg, hp, hc⟩ := ihB _ _ _ _ h
        refine ⟨hg, hp.trans (List.filter_sublist _), hc.trans (List.filter_sublist _)⟩
    · -- broadcastF
      intro st excl m r h
      rw [broadcastF] at h
      by_cases hc : st.connected_clients = []
      · simp only [hc, if_pos rfl] at h
        cases h
        exact ⟨rfl, List.Sublist.refl _, List.Sublist.refl _⟩
      · simp only [if_neg hc] at h
        cases hra : removeAllF fail now fuel st
            ((st.connected_clients.filter (fun ws => excl != some ws)).filter (fun ws => fail ws)) with
        | none => rw [hra] at h; cases h
        | some r2 =>
          obtain ⟨st2, outs⟩ := r2
          rw [hra] at h
          cases h
          obtain ⟨hg, hp, hc⟩ := ihA _ _ _ hra
          exact ⟨hg, hp, hc⟩
    · -- removeAllF
      intro st pending r h
      match pending with
      | [] =>
        rw [removeAllF] at h
        cases h
        exact ⟨rfl, List.Sublist.refl _, List.Sublist.refl _⟩
      | ws :: rest =>
        rw [removeAllF] at h
        cases hr1 : removePlayerF fail now fuel st ws with
        | none => rw [hr1] at h; cases h
        | some r1 =>
          obtain ⟨st1, o1⟩ := r1
          rw [hr1] at h
          dsimp only at h
          cases hr2 : removeAllF fail now fuel st1 rest with
          | none => rw [hr2] at h; cases h
          | some r2 =>
            obtain ⟨st2, o2⟩ := r2
            rw [hr2] at h
            cases h
            obtain ⟨g1, p1, c1⟩ := ihR _ _ _ hr1
            obtain ⟨g2, p2, c2⟩ := ihA _ _ _ hr2
            exact ⟨g2.trans g1, p2.trans p1, c2.trans c1⟩

theorem mem_namesOf {ps : List Player} {n : String} :
    n ∈ namesOf ps ↔ ∃ p, p ∈ ps ∧ p.name = n := by
  simp [namesOf, List.mem_map]

theorem namesOf_filter_not_self (ps : List Player) (n : String) :
    n ∉ namesOf (ps.filter fun p => p.name != n) := by
  intro h
  obtain ⟨p, hp, hn⟩ := mem_namesOf.mp h
  rw [List.mem_filter] at hp
  exact absurd hn (by simpa using hp.2)

theorem namesOf_subset_of_sublist {ps qs : List Player} (h : ps.Sublist qs) :
    ∀ n, n ∈ namesOf ps → n ∈ namesOf qs :=
  fun _ hn => (h.map (fun p => p.name)).subset hn

theorem cPL_append (n : String) (a b : List Out) :
    cPL n (a ++ b) = cPL n a + cPL n b := by
  simp [cPL, plNames, List.filterMap_append, List.count_append]

theorem cPL_broadcast_cons (n : String) (m : Msg) (ts : Nat) (rec : List Nat)
    (outs : List Out) :
    cPL n (Out.broadcastEv m ts rec :: outs) = plh n m + cPL n outs := by
  cases m
  case playerLeft k t =>
    by_cases hk : k = n
    · simp [cPL, plNames, plh, List.count_cons, hk, Nat.add_comm]
    · simp [cPL, plNames, plh, List.count_cons, hk]
  all_goals simp [cPL, plNames, plh]

/-- Accounting of `player_left` broadcast passes in the cleanup recursion:
each name is broadcast at most once, and a broadcast name was removed from
the directory (`broadcastF` may additionally carry a caller-supplied
`player_left` message, counted by `plh`). -/
theorem plCount (fail : Nat → Bool) (now : Nat) : ∀ fuel : Nat,
    (∀ st ws r, removePlayerF fail now fuel st ws = some r → ∀ n,
      cPL n r.2 ≤ 1 ∧ (1 ≤ cPL n r.2 → n ∈ namesOf st.players ∧ n ∉ namesOf r.1.players)) ∧
    (∀ st excl m r, broadcastF fail now fuel st excl m = some r → ∀ n,
      cPL n r.2 ≤ plh n m + 1 ∧
        (plh n m < cPL n r.2 → n ∈ namesOf st.players ∧ n ∉ namesOf r.1.players)) ∧
    (∀ st pending r, removeAllF fail now fuel st pending = some r → ∀ n,
      cPL n r.2 ≤ 1 ∧ (1 ≤ cPL n r.2 → n ∈ namesOf st.players ∧ n ∉ namesOf r.1.players)) := by
  intro fuel
  induction fuel with
  | zero =>
    refine ⟨?_, ?_, ?_⟩ <;> intro st
    · intro ws r h; simp [removePlayerF] at h
    · intro excl m r h; simp [broadcastF] at h
    · intro pending r h; simp [removeAllF] at h
  | succ fuel ih =>
    obtain ⟨ihR, ihB, ihA⟩ := ih
    refine ⟨?_, ?_, ?_⟩
    · -- removePlayerF
      intro st ws r h n
      rw [removePlayerF] at h
      cases hf : findByWs st.players ws with
      | none =>
        simp only [hf] at h
        cases h
        simp [cPL, plNames]
      | some nm =>
        simp only [hf] at h
        have hb := ihB _ _ _ _ h n
        have hout : nm ∉ namesOf (st.players.filter fun p => p.name != nm) :=
          namesOf_filter_not_self _ _
        obtain ⟨pf, hpf, hpfn, hpfw⟩ := findByWs_some hf
        have hsub := (stateEvo fail now fuel).2.1 _ _ _ _ h
        by_cases hn : nm = n
        · subst hn
          have hplh : plh nm (Msg.playerLeft nm
              (st.players.filter fun p => p.name != nm).length) = 1 := by
            simp [plh]
          constructor
          · by_contra hcp
            push_neg at hcp
            have := hb.2 (by omega)
            exact hout this.1
          · intro _
            refine ⟨mem_namesOf.mpr ⟨pf, hpf, hpfn⟩, ?_⟩
            intro hmem
            exact hout (namesOf_subset_of_sublist hsub.2.1 _ hmem)
        · have hplh : plh n (Msg.playerLeft nm
              (st.players.filter fun p => p.name != nm).length) = 0 := by
            simp [plh, hn]
          rw [hplh] at hb
          refine ⟨hb.1, ?_⟩
          intro h1
          obtain ⟨hm, hnm⟩ := hb.2 (by omega)
          refine ⟨?_, hnm⟩
          exact namesOf_subset_of_sublist (List.filter_sublist _) _ hm
    · -- broadcastF
      intro st excl m r h n
      rw [broadcastF] at h
      by_cases hc : st.connected_clients = []
      · simp only [hc, if_pos rfl] at h
        cases h
        simp [cPL, plNames]
      · simp only [if_neg hc] at h
        cases hra : removeAllF fail now fuel st
            ((st.connected_clients.filter (fun ws => excl != some ws)).filter
              (fun ws => fail ws)) with
        | none => rw [hra] at h; cases h
        | some r2 =>
          obtain ⟨st2, outs⟩ := r2
          rw [hra] at h
          cases h
          obtain ⟨ha1, ha2⟩ := ihA _ _ _ hra n
          have ha1 : cPL n outs ≤ 1 := ha1
          have ha2 : 1 ≤ cPL n outs → n ∈ namesOf st.players ∧ n ∉ namesOf st2.players := ha2
          rw [cPL_broadcast_cons]
          constructor
          · omega
          · intro hlt
            exact ha2 (by omega)
    · -- removeAllF
      intro st pending r h n
      match pending with
      | [] =>
        rw [removeAllF] at h
        cases h
        simp [cPL, plNames]
      | ws :: rest =>
        rw [removeAllF] at h
        cases hr1 : removePlayerF fail now fuel st ws with
        | none => rw [hr1] at h; cases h
        | some r1 =>
          obtain ⟨st1, o1⟩ := r1
          rw [hr1] at h
          dsimp only at h
          cases hr2 : removeAllF fail now fuel st1 rest with
          | none => rw [hr2] at h; cases h
          | some r2 =>
            obtain ⟨st2, o2⟩ := r2
            rw [hr2] at h
            cases h
            obtain ⟨c1le, himp1⟩ := ihR _ _ _ hr1 n
            obtain ⟨c2le, himp2⟩ := ihA _ _ _ hr2 n
            have c1le : cPL n o1 ≤ 1 := c1le
            have c2le : cPL n o2 ≤ 1 := c2le
            have himp1 : 1 ≤ cPL n o1 → n ∈ namesOf st.players ∧ n ∉ namesOf st1.players := himp1
            have himp2 : 1 ≤ cPL n o2 → n ∈ namesOf st1.players ∧ n ∉ namesOf st2.players := himp2
            have hsub1 := (stateEvo fail now fuel).1 _ _ _ hr1
            have hsub2 := (stateEvo fail now fuel).2.2 _ _ _ hr2
            rw [cPL_append]
            have hdisj : cPL n o1 = 0 ∨ cPL n o2 = 0 := by
              by_cases hc1 : 1 ≤ cPL n o1
              · by_cases hc2 : 1 ≤ cPL n o2
                · exact absurd (himp2 hc2).1 ((himp1 hc1).2)
                · right; omega
              · left; omega
            constructor
            · rcases hdisj with h0 | h0 <;> omega
            · intro hsum
              by_cases hc1 : 1 ≤ cPL n o1
              · obtain ⟨hin, hout⟩ := himp1 hc1
                refine ⟨hin, ?_⟩
                intro hmem
                exact hout (namesOf_subset_of_sublist hsub2.2.1 _ hmem)
              · have hc2 : 1 ≤ cPL n o2 := by omega
                obtain ⟨hin, hout⟩ := himp2 hc2
                exact ⟨namesOf_subset_of_sublist hsub1.2.1 _ hin, hout⟩

theorem plNames_append (a b : List Out) : plNames (a ++ b) = plNames a ++ plNames b := by
  simp [plNames, List.filterMap_append]

theorem mem_plNames_broadcast_cons {n : String} {m : Msg} {ts : Nat} {rec : List Nat}
    {outs : List Out} :
    n ∈ plNames (Out.broadcastEv m ts rec :: outs) ↔ plh n m = 1 ∨ n ∈ plNames outs := by
  cases m
  case playerLeft k t =>
    by_cases hk : k = n
    · simp [plNames, plh, hk]
    · simp [plNames, plh, hk, Ne.symm hk]
  all_goals simp [plNames, plh]

theorem nodupNames_inj {ps : List Player} (h : NodupNames ps) :
    ∀ p, p ∈ ps → ∀ q, q ∈ ps → p.name = q.name → p = q := by
  intro p hp q hq hn
  exact List.inj_on_of_nodup_map h hp hq hn

theorem uniqueWs_of_sublist {ps qs : List Player} (s : ps.Sublist qs)
    (h : UniqueWs qs) : UniqueWs ps :=
  fun p hp q hq hw => h p (s.subset hp) q (s.subset hq) hw

theorem nodupNames_of_sublist {ps qs : List Player} (s : ps.Sublist qs)
    (h : NodupNames qs) : NodupNames ps := by
  unfold NodupNames namesOf at h ⊢
  exact List.Nodup.sublist (List.Sublist.map (fun p => p.name) s) h

theorem findByWs_unique {ps : List Player} {p : Player} (hu : UniqueWs ps)
    (hp : p ∈ ps) (hw : p.websocket = ws) : findByWs ps ws = some p.name := by
  cases hf : findByWs ps ws with
  | none => exact absurd hw (findByWs_none hf p hp)
  | some nm =>
    obtain ⟨q, hq, hqn, hqw⟩ := findByWs_some hf
    have : q = p := hu q hq p hp (by rw [hqw, hw])
    rw [← hqn, this]

/-- Every `player_left` broadcast issued by the cleanup recursion names a
player whose socket failed (or, for a direct `remove_player` call, the very
socket being removed). -/
theorem plSource (fail : Nat → Bool) (now : Nat) : ∀ fuel : Nat,
    (∀ st ws r, removePlayerF fail now fuel st ws = some r → ∀ n, n ∈ plNames r.2 →
      ∃ p, p ∈ st.players ∧ p.name = n ∧ (fail p.websocket = true ∨ p.websocket = ws)) ∧
    (∀ st excl m r, broadcastF fail now fuel st excl m = some r → ∀ n, n ∈ plNames r.2 →
      plh n m = 1 ∨ ∃ p, p ∈ st.players ∧ p.name = n ∧ fail p.websocket = true) ∧
    (∀ st pending r, removeAllF fail now fuel st pending = some r →
      (∀ w, w ∈ pending → fail w = true) → ∀ n, n ∈ plNames r.2 →
      ∃ p, p ∈ st.players ∧ p.name = n ∧ fail p.websocket = true) := by
  intro fuel
  induction fuel with
  | zero =>
    refine ⟨?_, ?_, ?_⟩ <;> intro st
    · intro ws r h; simp [removePlayerF] at h
    · intro excl m r h; simp [broadcastF] at h
    · intro pending r h; simp [removeAllF] at h
  | succ fuel ih =>
    obtain ⟨ihR, ihB, ihA⟩ := ih
    refine ⟨?_, ?_, ?_⟩
    · -- removePlayerF
      intro st ws r h n hn
      rw [removePlayerF] at h
      cases hf : findByWs st.players ws with
      | none =>
        simp only [hf] at h
        cases h
        simp [plNames] at hn
      | some nm =>
        simp only [hf] at h
        obtain ⟨pf, hpf, hpfn, hpfw⟩ := findByWs_some hf
        rcases ihB _ _ _ _ h n hn with hplh | ⟨p, hp, hpn, hpw⟩
        · have : nm = n := by
            by_contra hne
            simp [plh, hne] at hplh
          exact ⟨pf, hpf, this ▸ hpfn, Or.inr hpfw⟩
        · rw [List.mem_filter] at hp
          exact ⟨p, hp.1, hpn, Or.inl hpw⟩
    · -- broadcastF
      intro st excl m r h n hn
      rw [broadcastF] at h
      by_cases hc : st.connected_clients = []
      · simp only [hc, if_pos rfl] at h
        cases h
        simp [plNames] at hn
      · simp only [if_neg hc] at h
        cases hra : removeAllF fail now fuel st
            ((st.connected_clients.filter (fun ws => excl != some ws)).filter
              (fun ws => fail ws)) with
        | none => rw [hra] at h; cases h
        | some r2 =>
          obtain ⟨st2, outs⟩ := r2
          rw [hra] at h
          cases h
          rcases mem_plNames_broadcast_cons.mp hn with hh | ht
          · exact Or.inl hh
          · refine Or.inr (ihA _ _ _ hra ?_ n ht)
            intro w hw
            exact (List.mem_filter.mp hw).2
    · -- removeAllF
      intro st pending r h hfa n hn
      match pending with
      | [] =>
        rw [removeAllF] at h
        cases h
        simp [plNames] at hn
      | ws :: rest =>
        rw [removeAllF] at h
        cases hr1 : removePlayerF fail now fuel st ws with
        | none => rw [hr1] at h; cases h
        | some r1 =>
          obtain ⟨st1, o1⟩ := r1
          rw [hr1] at h
          dsimp only at h
          cases hr2 : removeAllF fail now fuel st1 rest with
          | none => rw [hr2] at h; cases h
          | some r2 =>
            obtain ⟨st2, o2⟩ := r2
            rw [hr2] at h
            cases h
            have hsub1 := (stateEvo fail now fuel).1 _ _ _ hr1
            rw [plNames_append, List.mem_append] at hn
            rcases hn with h1 | h2
            · obtain ⟨p, hp, hpn, hpw⟩ := ihR _ _ _ hr1 n h1
              refine ⟨p, hp, hpn, ?_⟩
              rcases hpw with hf | hws
              · exact hf
              · rw [hws]
                exact hfa ws (List.mem_cons_self ..)
            · obtain ⟨p, hp, hpn, hpw⟩ := ihA _ _ _ hr2
                (fun w hw => hfa w (List.mem_cons_of_mem _ hw)) n h2
              exact ⟨p, hsub1.2.1.subset hp, hpn, hpw⟩

theorem not_mem_of_sublist {l1 l2 : List Nat} (s : l1.Sublist l2) {w : Nat}
    (h : w ∉ l2) : w ∉ l1 := fun hm => h (s.subset hm)

theorem not_mem_filter_bne (l : List Nat) (ws : Nat) :
    ws ∉ l.filter (fun c => c != ws) := by
  intro h
  rw [List.mem_filter] at h
  simp at h

/-- Removal guarantees of the cleanup recursion: a removed socket leaves the
registry for good, and (assuming one player per socket) the player bound to
a removed socket leaves the directory for good. -/
theorem removalGuar (fail : Nat → Bool) (now : Nat) : ∀ fuel : Nat,
    (∀ st ws r, removePlayerF fail now fuel st ws = some r →
      ws ∉ r.1.connected_clients ∧
        (UniqueWs st.players → ∀ p, p ∈ st.players → p.websocket = ws →
          p.name ∉ namesOf r.1.players)) ∧
    (∀ st excl m r, broadcastF fail now fuel st excl m = some r →
      NodupNames st.players → UniqueWs st.players →
      ∀ w, w ∈ st.connected_clients → fail w = true → excl ≠ some w →
        w ∉ r.1.connected_clients ∧
          ∀ p, p ∈ st.players → p.websocket = w → p.name ∉ namesOf r.1.players) ∧
    (∀ st pending r, removeAllF fail now fuel st pending = some r →
      NodupNames st.players → UniqueWs st.players →
      ∀ w, w ∈ pending →
        w ∉ r.1.connected_clients ∧
          ∀ p, p ∈ st.players → p.websocket = w → p.name ∉ namesOf r.1.players) := by
  intro fuel
  induction fuel with
  | zero =>
    refine ⟨?_, ?_, ?_⟩ <;> intro st
    · intro ws r h; simp [removePlayerF] at h
    · intro excl m r h; simp [broadcastF] at h
    · intro pending r h; simp [removeAllF] at h
  | succ fuel ih =>
    obtain ⟨ihR, ihB, ihA⟩ := ih
    refine ⟨?_, ?_, ?_⟩
    · -- removePlayerF
      intro st ws r h
      rw [removePlayerF] at h
      cases hf : findByWs st.players ws with
      | none =>
        simp only [hf] at h
        cases h
        refine ⟨not_mem_filter_bne _ _, ?_⟩
        intro _ p hp hw
        exact absurd hw (findByWs_none hf p hp)
      | some nm =>
        simp only [hf] at h
        have hsub := (stateEvo fail now fuel).2.1 _ _ _ _ h
        constructor
        · exact not_mem_of_sublist hsub.2.2 (not_mem_filter_bne _ _)
        · intro hu p hp hw
          have hnm : nm = p.name := by
            have := findByWs_unique hu hp hw
            rw [hf] at this
            exact (Option.some.injEq _ _).mp this
          intro hmem
          have hin := namesOf_subset_of_sublist hsub.2.1 _ hmem
          rw [← hnm] at hin
          exact namesOf_filter_not_self _ _ hin
    · -- broadcastF
      intro st excl m r h hnod hu w hwc hwf hwe
      rw [broadcastF] at h
      by_cases hc : st.connected_clients = []
      · rw [hc] at hwc; simp at hwc
      · simp only [if_neg hc] at h
        cases hra : removeAllF fail now fuel st
            ((st.connected_clients.filter (fun ws => excl != some ws)).filter
              (fun ws => fail ws)) with
        | none => rw [hra] at h; cases h
        | some r2 =>
          obtain ⟨st2, outs⟩ := r2
          rw [hra] at h
          cases h
          refine ihA _ _ _ hra hnod hu w ?_
          rw [List.mem_filter, List.mem_filter]
          refine ⟨⟨hwc, ?_⟩, hwf⟩
          simp [bne_iff_ne]
          exact hwe
    · -- removeAllF
      intro st pending r h hnod hu w hw
      match pending with
      | [] => simp at hw
      | ws :: rest =>
        rw [removeAllF] at h
        cases hr1 : removePlayerF fail now fuel st ws with
        | none => rw [hr1] at h; cases h
        | some r1 =>
          obtain ⟨st1, o1⟩ := r1
          rw [hr1] at h
          dsimp only at h
          cases hr2 : removeAllF fail now fuel st1 rest with
          | none => rw [hr2] at h; cases h
          | some r2 =>
            obtain ⟨st2, o2⟩ := r2
            rw [hr2] at h
            cases h
            have hsub1 := (stateEvo fail now fuel).1 _ _ _ hr1
            have hsub2 := (stateEvo fail now fuel).2.2 _ _ _ hr2
            have hr := ihR _ _ _ hr1
            rcases List.mem_cons.mp hw with rfl | hwr
            · refine ⟨not_mem_of_sublist hsub2.2.2 hr.1, ?_⟩
              intro p hp hpw hmem
              exact hr.2 hu p hp hpw (namesOf_subset_of_sublist hsub2.2.1 _ hmem)
            · have hnod1 : NodupNames st1.players := nodupNames_of_sublist hsub1.2.1 hnod
              have hu1 : UniqueWs st1.players := uniqueWs_of_sublist hsub1.2.1 hu
              have ha := ihA _ _ _ hr2 hnod1 hu1 w hwr
              refine ⟨ha.1, ?_⟩
              intro p hp hpw hmem
              by_cases hps : p ∈ st1.players
              · exact ha.2 p hps hpw hmem
              · have hout : p.name ∉ namesOf st1.players := by
                  intro hin
                  obtain ⟨q, hq, hqn⟩ := mem_namesOf.mp hin
                  have : q = p := nodupNames_inj hnod q (hsub1.2.1.subset hq) p hp hqn
                  rw [this] at hq
                  exact hps hq
                exact hout (namesOf_subset_of_sublist hsub2.2.1 _ hmem)

/-- Fuel bound of the previous level (`fuelBound (k-1)`, and `0` at level 0). -/
def fbp : Nat → Nat
  | 0 => 0
  | k + 1 => fuelBound k

theorem fuelBound_ge_two (k : Nat) : 2 ≤ fuelBound k := by
  cases k with
  | zero => simp [fuelBound]
  | succ j =>
    have e : fuelBound (j + 1) = 2 + 2 * (j + 1) + (j + 1) * fuelBound j := rfl
    omega

theorem fuelBound_succ_ge (k : Nat) : fuelBound k + 1 ≤ fuelBound (k + 1) := by
  have e : fuelBound (k + 1) = 2 + 2 * (k + 1) + (k + 1) * fuelBound k := rfl
  have h1 : fuelBound k ≤ (k + 1) * fuelBound k :=
    Nat.le_mul_of_pos_left _ (Nat.succ_pos k)
  omega

theorem fbp_succ_le (k : Nat) : 1 + fbp k ≤ fuelBound k := by
  cases k with
  | zero => simp [fbp, fuelBound]
  | succ j =>
    have := fuelBound_succ_ge j
    simp only [fbp]
    omega

/-- Termination of the cleanup recursion: `fuelBound (phi st)` fuel always
suffices, because every recursive re-entry strictly shrinks the registry or
the directory. -/
theorem adequacy (fail : Nat → Bool) (now : Nat) : ∀ k : Nat, ∀ st : ServerState, phi st ≤ k →
    (∀ pending f, pending.length ≤ k → 1 + pending.length * (2 + fbp k) ≤ f →
      (removeAllF fail now f st pending).isSome = true) ∧
    (∀ ws f, fuelBound k ≤ f → (removePlayerF fail now f st ws).isSome = true) ∧
    (∀ excl m f, fuelBound k ≤ f → (broadcastF fail now f st excl m).isSome = true) := by
  intro k
  induction k using Nat.strongRecOn with
  | ind k ih =>
    intro st hphi
    -- one remove_player call at potential ≤ k terminates on 1 + fbp k fuel
    have hRP : ∀ st2 w f2, phi st2 ≤ k → 1 + fbp k ≤ f2 →
        (removePlayerF fail now f2 st2 w).isSome = true := by
      intro st2 w f2 hphi2 hf2
      obtain ⟨f3, rfl⟩ : ∃ f3, f2 = f3 + 1 := ⟨f2 - 1, by omega⟩
      rw [removePlayerF]
      cases hfind : findByWs st2.players w with
      | none => simp [hfind]
      | some nm =>
        simp only [hfind]
        obtain ⟨pf, hpf, hpfn, hpfw⟩ := findByWs_some hfind
        have hlt : (st2.players.filter (fun p => p.name != nm)).length < st2.players.length := by
          rw [List.length_filter_lt_length_iff_exists]
          exact ⟨pf, hpf, by simp [hpfn]⟩
        have hconn : (st2.connected_clients.filter (fun c => c != w)).length ≤
            st2.connected_clients.length := List.length_filter_le _ _
        have hple : 1 ≤ st2.players.length := by
          cases hps : st2.players with
          | nil => rw [hps] at hpf; simp at hpf
          | cons a b => simp [hps]
        have hk1 : 1 ≤ k := by
          unfold phi at hphi2
          omega
        obtain ⟨j, rfl⟩ : ∃ j, k = j + 1 := ⟨k - 1, by omega⟩
        have hphi3 : phi { st2 with
            players := st2.players.filter (fun p => p.name != nm),
            connected_clients := st2.connected_clients.filter (fun c => c != w) } ≤ j := by
          unfold phi at *
          simp only
          omega
        have hf3 : fuelBound j ≤ f3 := by
          simp only [fbp] at hf2
          omega
        exact (ih j (by omega) _ hphi3).2.2 none _ f3 hf3
    -- a cleanup pass over any pending list terminates
    have hRA : ∀ pending st2 f, phi st2 ≤ k → pending.length ≤ k →
        1 + pending.length * (2 + fbp k) ≤ f →
        (removeAllF fail now f st2 pending).isSome = true := by
      intro pending
      induction pending with
      | nil =>
        intro st2 f _ _ hf
        obtain ⟨f2, rfl⟩ : ∃ f2, f = f2 + 1 := ⟨f - 1, by omega⟩
        simp [removeAllF]
      | cons w rest ihp =>
        intro st2 f hphi2 hlen hf
        have hsm : (rest.length + 1) * (2 + fbp k) =
            rest.length * (2 + fbp k) + (2 + fbp k) := Nat.succ_mul _ _
        simp only [List.length_cons] at hf hlen
        obtain ⟨f2, rfl⟩ : ∃ f2, f = f2 + 1 := ⟨f - 1, by omega⟩
        rw [removeAllF]
        have hRsome := hRP st2 w f2 hphi2 (by omega)
        obtain ⟨r1, hr1⟩ := Option.isSome_iff_exists.mp hRsome
        obtain ⟨st1, o1⟩ := r1
        rw [hr1]
        dsimp only
        have hsub := (stateEvo fail now f2).1 _ _ _ hr1
        have hphi1 : phi st1 ≤ k := by
          have h1 : st1.players.length ≤ st2.players.length := hsub.2.1.length_le
          have h2 : st1.connected_clients.length ≤ st2.connected_clients.length :=
            hsub.2.2.length_le
          unfold phi at *
          omega
        have hAsome := ihp st1 f2 hphi1 (by omega) (by omega)
        obtain ⟨r2, hr2⟩ := Option.isSome_iff_exists.mp hAsome
        obtain ⟨st2b, o2⟩ := r2
        rw [hr2]
        simp
    refine ⟨fun pending f h1 h2 => hRA pending st f hphi h1 h2, ?_, ?_⟩
    · -- removePlayerF
      intro ws f hf
      have := fbp_succ_le k
      exact hRP st ws f hphi (by omega)
    · -- broadcastF
      intro excl m f hf
      have h2 := fuelBound_ge_two k
      obtain ⟨f2, rfl⟩ : ∃ f2, f = f2 + 1 := ⟨f - 1, by omega⟩
      rw [broadcastF]
      by_cases hc : st.connected_clients = []
      · simp [hc]
      · simp only [if_neg hc]
        have l1 := List.length_filter_le (fun ws => fail ws)
          (st.connected_clients.filter (fun ws => excl != some ws))
        have l2 := List.length_filter_le (fun ws => excl != some ws) st.connected_clients
        have hck : 1 ≤ st.connected_clients.length := by
          cases hcs : st.connected_clients with
          | nil => exact absurd hcs hc
          | cons a b => simp [hcs]
        have hk1 : 1 ≤ k := by
          unfold phi at hphi
          omega
        obtain ⟨j, rfl⟩ : ∃ j, k = j + 1 := ⟨k - 1, by omega⟩
        have hlenk : ((st.connected_clients.filter (fun ws => excl != some ws)).filter
            (fun ws => fail ws)).length ≤ j + 1 := by
          unfold phi at hphi
          omega
        have hfa : 1 + ((st.connected_clients.filter (fun ws => excl != some ws)).filter
            (fun ws => fail ws)).length * (2 + fbp (j + 1)) ≤ f2 := by
          have e : fuelBound (j + 1) = 2 + 2 * (j + 1) + (j + 1) * fuelBound j := rfl
          have hm : ((st.connected_clients.filter (fun ws => excl != some ws)).filter
              (fun ws => fail ws)).length * (2 + fuelBound j) ≤
              (j + 1) * (2 + fuelBound j) := Nat.mul_le_mul_right _ hlenk
          have e2 : (j + 1) * (2 + fuelBound j) = 2 * (j + 1) + (j + 1) * fuelBound j := by
            ring
          simp only [fbp]
          omega
        have hAsome := hRA _ st f2 hphi hlenk hfa
        obtain ⟨r2, hr2⟩ := Option.isSome_iff_exists.mp hAsome
        obtain ⟨st2b, o2⟩ := r2
        rw [hr2]
        simp

theorem filter_noFail_pos (l : List Nat) : l.filter (fun ws => !noFail ws) = l := by
  induction l with
  | nil => rfl
  | cons a t ih => simp [noFail, ih]

theorem filter_noFail_neg (l : List Nat) : l.filter (fun ws => noFail ws) = [] := by
  induction l with
  | nil => rfl
  | cons a t ih => simp [noFail, ih]

theorem filter_excl_none (l : List Nat) :
    l.filter (fun ws => (none : Option Nat) != some ws) = l := by
  induction l with
  | nil => rfl
  | cons a t ih => simp [ih]

/-- With no failing socket, one broadcast pass delivers to every
non-excluded socket and removes nobody. -/
theorem broadcastF_noFail (now fuel : Nat) (st : ServerState) (excl : Option Nat) (m : Msg) :
    broadcastF noFail now (fuel + 2) st excl m =
      some (st, if st.connected_clients = [] then []
        else [Out.broadcastEv m now
          (st.connected_clients.filter (fun ws => excl != some ws))]) := by
  rw [broadcastF]
  by_cases hc : st.connected_clients = []
  · simp [hc]
  · simp only [if_neg hc]
    rw [filter_noFail_neg, filter_noFail_pos]
    have hra : removeAllF noFail now (fuel + 1) st [] = some (st, []) := by
      rw [removeAllF]
    rw [hra]

theorem sendTo_noFail (ws : Nat) (m : Msg) : sendTo noFail ws m = [Out.sent ws m] := by
  simp [sendTo, noFail]

theorem lookupPlayer_mem {ps : List Player} {n : String} {p : Player}
    (h : lookupPlayer ps n = some p) : p ∈ ps ∧ p.name = n := by
  induction ps with
  | nil => simp [lookupPlayer] at h
  | cons q qs ih =>
    rw [lookupPlayer] at h
    by_cases hq : q.name = n
    · rw [if_pos hq] at h
      injection h with h
      subst h
      exact ⟨List.mem_cons_self .., hq⟩
    · rw [if_neg hq] at h
      obtain ⟨hm, hn⟩ := ih h
      exact ⟨List.mem_cons_of_mem _ hm, hn⟩

theorem lookup_updatePlayer_self {ps : List Player} {n : String} {p : Player}
    (f : Player → Player) (hf : ∀ q, (f q).name = q.name)
    (h : lookupPlayer ps n = some p) :
    lookupPlayer (updatePlayer ps n f) n = some (f p) := by
  induction ps with
  | nil => simp [lookupPlayer] at h
  | cons q qs ih =>
    rw [lookupPlayer] at h
    by_cases hq : q.name = n
    · rw [if_pos hq] at h
      injection h with h
      subst h
      show lookupPlayer ((if q.name = n then f q else q) :: updatePlayer qs n f) n
        = some (f q)
      rw [if_pos hq, lookupPlayer, if_pos (by rw [hf]; exact hq)]
    · rw [if_neg hq] at h
      show lookupPlayer ((if q.name = n then f q else q) :: updatePlayer qs n f) n
        = some (f p)
      rw [if_neg hq, lookupPlayer, if_neg hq]
      exact ih h

theorem namesOf_updatePlayer {ps : List Player} {n : String}
    (f : Player → Player) (hf : ∀ q, (f q).name = q.name) :
    namesOf (updatePlayer ps n f) = namesOf ps := by
  induction ps with
  | nil => rfl
  | cons q qs ih =>
    show namesOf ((if q.name = n then f q else q) :: updatePlayer qs n f) = _
    by_cases hq : q.name = n
    · rw [if_pos hq]
      show (f q).name :: namesOf (updatePlayer qs n f) = q.name :: namesOf qs
      rw [hf, ih]
    · rw [if_neg hq]
      show q.name :: namesOf (updatePlayer qs n f) = q.name :: namesOf qs
      rw [ih]

theorem namesOf_map_pres {ps : List Player} (f : Player → Player)
    (hf : ∀ q, (f q).name = q.name) : namesOf (ps.map f) = namesOf ps := by
  induction ps with
  | nil => rfl
  | cons q qs ih =>
    show (f q).name :: namesOf (qs.map f) = q.name :: namesOf qs
    rw [hf, ih]

theorem any_name_iff {ps : List Player} {n : String} :
    (ps.any fun p => p.name = n) = true ↔ n ∈ namesOf ps := by
  simp [namesOf, List.any_eq_true]

theorem handle_guess_inactive (fail : Nat → Bool) (now fuel : Nat) (st : ServerState)
    (ws : Nat) (pn : String) (g : Int) (h : st.game_state.is_active = false) :
    handle_guess fail now fuel st ws pn g =
      some (st, sendTo fail ws (Msg.errorMsg ErrReason.notActive)) := by
  rw [handle_guess]
  simp [h]

theorem handle_guess_unknown (fail : Nat → Bool) (now fuel : Nat) (st : ServerState)
    (ws : Nat) (pn : String) (g : Int) (hact : st.game_state.is_active = true)
    (h : lookupPlayer st.players pn = none) :
    handle_guess fail now fuel st ws pn g = some (st, []) := by
  rw [handle_guess]
  simp [hact, h]

theorem handle_guess_exhaust (fail : Nat → Bool) (now fuel : Nat) (st : ServerState)
    (ws : Nat) (pn : String) (g : Int) (p : Player)
    (hact : st.game_state.is_active = true)
    (hlk : lookupPlayer st.players pn = some p)
    (hg : ¬g = st.game_state.secret_number)
    (hmax : st.game_state.max_guesses ≤ p.guesses + 1) :
    handle_guess fail now fuel st ws pn g =
      some ({ st with players :=
            updatePlayer st.players pn (fun q => { q with guesses := p.guesses + 1 }) },
        sendTo fail ws (Msg.outOfGuesses st.game_state.secret_number)) := by
  rw [handle_guess]
  simp [hact, hlk, hg, hmax]

theorem handle_guess_win (now fuel : Nat) (st : ServerState)
    (ws : Nat) (pn : String) (g : Int) (p : Player)
    (hact : st.game_state.is_active = true)
    (hlk : lookupPlayer st.players pn = some p)
    (hg : g = st.game_state.secret_number)
    (hconn : ¬st.connected_clients = []) :
    handle_guess noFail now (fuel + 2) st ws pn g =
      some ({ st with
          players :=
            updatePlayer
              (updatePlayer st.players pn (fun q => { q with guesses := p.guesses + 1 }))
              pn
              (fun q =>
                { q with score :=
                    q.score + max 1 (st.game_state.max_guesses - (p.guesses + 1) + 1) }),
          game_state := { st.game_state with winner := some pn, is_active := false } },
        [Out.broadcastEv
          (Msg.gameWon pn st.game_state.secret_number (p.guesses + 1)
            (max 1 (st.game_state.max_guesses - (p.guesses + 1) + 1)))
          now st.connected_clients]) := by
  rw [handle_guess]
  simp only [hact, Bool.true_eq_false, if_false, hlk, hg, if_true, if_pos rfl]
  rw [broadcastF_noFail]
  simp [hconn, filter_excl_none]

theorem handle_guess_hint (now fuel : Nat) (st : ServerState)
    (ws : Nat) (pn : String) (g : Int) (p : Player)
    (hact : st.game_state.is_active = true)
    (hlk : lookupPlayer st.players pn = some p)
    (hg : ¬g = st.game_state.secret_number)
    (hlim : p.guesses + 1 < st.game_state.max_guesses) :
    handle_guess noFail now (fuel + 2) st ws pn g =
      some ({ st with players :=
            updatePlayer st.players pn (fun q => { q with guesses := p.guesses + 1 }) },
        Out.sent ws (Msg.guessResult g
          (if st.game_state.secret_number < g then HintDir.tooHigh else HintDir.tooLow)
          (st.game_state.max_guesses - (p.guesses + 1))) ::
        (if st.connected_clients = [] then []
          else [Out.broadcastEv
            (Msg.playerGuessed pn g (st.game_state.max_guesses - (p.guesses + 1)))
            now (st.connected_clients.filter (fun w => some ws != some w))])) := by
  rw [handle_guess]
  simp only [hact, Bool.true_eq_false, if_false, hlk, hg, if_true,
    Nat.not_le.mpr hlim, if_neg hg]
  rw [broadcastF_noFail, sendTo_noFail]
  simp

theorem register_taken (fail : Nat → Bool) (now fuel : Nat) (st : ServerState)
    (ws : Nat) (n : String) (h : n ∈ namesOf st.players) :
    register_player fail now fuel st ws n =
      some (st, sendTo fail ws (Msg.errorMsg ErrReason.nameTaken), false) := by
  rw [register_player]
  simp [any_name_iff.mpr h]

theorem register_fresh (now fuel : Nat) (st : ServerState) (ws : Nat) (n : String)
    (h : n ∉ namesOf st.players) :
    ∃ outs, register_player noFail now (fuel + 2) st ws n =
      some ({ st with
          players := st.players ++ [{ websocket := ws, name := n, score := 0, guesses := 0 }],
          connected_clients := if ws ∈ st.connected_clients then st.connected_clients
            else st.connected_clients ++ [ws] }, outs, true) := by
  have ha : (st.players.any fun p => p.name = n) = false :=
    Bool.eq_false_iff.mpr fun hx => h (any_name_iff.mp hx)
  rw [register_player]
  simp only [ha, Bool.false_eq_true, if_false]
  rw [broadcastF_noFail]
  exact ⟨_, rfl⟩

theorem mem_insertDesc {x p : String × Nat} {l : List (String × Nat)} :
    x ∈ insertDesc p l ↔ x = p ∨ x ∈ l := by
  induction l with
  | nil => simp [insertDesc]
  | cons q qs ih =>
    rw [insertDesc]
    by_cases hpq : p.2 < q.2
    · rw [if_pos hpq]
      simp only [List.mem_cons, ih]
      tauto
    · rw [if_neg hpq]
      simp [List.mem_cons]

theorem pairwise_insertDesc {p : String × Nat} {l : List (String × Nat)}
    (h : l.Pairwise (fun a b => b.2 ≤ a.2)) :
    (insertDesc p l).Pairwise (fun a b => b.2 ≤ a.2) := by
  induction l with
  | nil => simp [insertDesc]
  | cons q qs ih =>
    rw [insertDesc]
    rw [List.pairwise_cons] at h
    by_cases hpq : p.2 < q.2
    · rw [if_pos hpq]
      rw [List.pairwise_cons]
      constructor
      · intro x hx
        rcases mem_insertDesc.mp hx with rfl | hxl
        · exact Nat.le_of_lt hpq
        · exact h.1 x hxl
      · exact ih h.2
    · rw [if_neg hpq]
      rw [List.pairwise_cons]
      constructor
      · intro x hx
        rcases List.mem_cons.mp hx with rfl | hxl
        · exact Nat.le_of_not_lt hpq
        · exact Nat.le_trans (h.1 x hxl) (Nat.le_of_not_lt hpq)
      · exact List.pairwise_cons.mpr h

theorem sortDesc_pairwise (l : List (String × Nat)) :
    (sortDesc l).Pairwise (fun a b => b.2 ≤ a.2) := by
  induction l with
  | nil => simp [sortDesc]
  | cons p ps ih =>
    rw [sortDesc]
    exact pairwise_insertDesc ih

theorem filter_insertDesc (c : Nat) (p : String × Nat) (l : List (String × Nat)) :
    (insertDesc p l).filter (fun x => x.2 == c) =
      (if p.2 = c then p :: l.filter (fun x => x.2 == c)
        else l.filter (fun x => x.2 == c)) := by
  induction l with
  | nil =>
    rw [insertDesc]
    by_cases hp : p.2 = c
    · simp [hp]
    · simp [hp]
  | cons q qs ih =>
    rw [insertDesc]
    by_cases hpq : p.2 < q.2
    · rw [if_pos hpq]
      rw [List.filter_cons, List.filter_cons]
      by_cases hp : p.2 = c
      · have hq : ¬q.2 = c := by omega
        simp [ih, hp, hq]
      · by_cases hq : q.2 = c
        · simp [ih, hp, hq]
        · simp [ih, hp, hq]
    · rw [if_neg hpq]
      rw [List.filter_cons]
      by_cases hp : p.2 = c
      · simp [hp]
      · simp [hp]

theorem filter_sortDesc (c : Nat) (l : List (String × Nat)) :
    (sortDesc l).filter (fun x => x.2 == c) = l.filter (fun x => x.2 == c) := by
  induction l with
  | nil => rfl
  | cons p ps ih =>
    rw [sortDesc, filter_insertDesc]
    by_cases hp : p.2 = c
    · simp only [if_pos hp, ih, List.filter_cons]
      simp [hp]
    · simp only [if_neg hp, ih, List.filter_cons]
      simp [hp]

/-- Claim C1: while the round is active, a guess equal to the secret yields
exactly one Won (`game_won`) broadcast, sets `active` to false, sets the
winner to the guessing player, and adds
`max(1, max_guesses - attempts + 1)` points (attempts counting this
winning guess) to the score of that player exactly once. -/
theorem claim_c1_win_scored_once (now fuel : Nat) (st : ServerState) (ws : Nat)
    (pn : String) (g : Int) (p : Player)
    (hact : st.game_state.is_active = true)
    (hlk : lookupPlayer st.players pn = some p)
    (hg : g = st.game_state.secret_number)
    (hconn : ¬st.connected_clients = []) :
    ∃ st2,
      handle_guess noFail now (fuel + 2) st ws pn g =
        some (st2,
          [Out.broadcastEv
            (Msg.gameWon pn st.game_state.secret_number (p.guesses + 1)
              (max 1 (st.game_state.max_guesses - (p.guesses + 1) + 1)))
            now st.connected_clients]) ∧
      st2.game_state.is_active = false ∧
      st2.game_state.winner = some pn ∧
      lookupPlayer st2.players pn =
        some
          { p with
            guesses := p.guesses + 1,
            score := p.score + max 1 (st.game_state.max_guesses - (p.guesses + 1) + 1) } := by
  refine ⟨_, handle_guess_win now fuel st ws pn g p hact hlk hg hconn, rfl, rfl, ?_⟩
  have h1 := lookup_updatePlayer_self (fun q => { q with guesses := p.guesses + 1 })
    (fun q => rfl) hlk
  exact lookup_updatePlayer_self
    (fun q =>
      { q with score := q.score + max 1 (st.game_state.max_guesses - (p.guesses + 1) + 1) })
    (fun q => rfl) h1

/-- Witness for C1 at a concrete state: secret 50, max_guesses 10, player at
one prior attempt guesses 50 and earns `max(1, 10 - 2 + 1) = 9` points. -/
theorem claim_c1_witness :
    ∃ st2,
      handle_guess noFail 7 3
        ⟨[⟨0, ("a"), 4, 1⟩], [0, 1], ⟨50, 1, 100, 10, true, none, 1⟩⟩
        1 ("a") 50 =
        some (st2, [Out.broadcastEv (Msg.gameWon ("a") 50 2 9) 7 [0, 1]]) ∧
      st2.game_state.is_active = false ∧
      st2.game_state.winner = some ("a") ∧
      lookupPlayer st2.players ("a") = some ⟨0, ("a"), 13, 2⟩ := by
  have h := claim_c1_win_scored_once 7 1
    ⟨[⟨0, ("a"), 4, 1⟩], [0, 1], ⟨50, 1, 100, 10, true, none, 1⟩⟩
    1 ("a") 50 ⟨0, ("a"), 4, 1⟩ rfl (by decide) rfl (by decide)
  simpa using h

/-- Claim C2 counterexample: with `max_guesses = 2`, a player whose counter
already equals the limit submits another non-matching guess; the guess is
still processed and the attempts counter grows to `3`, beyond the limit —
the claim says the counter stays at `max_guesses` and that no further
guesses are accepted. -/
theorem claim_c2_counterexample :
    handle_guess noFail 0 5
      ⟨[⟨0, ("a"), 5, 2⟩], [0, 1], ⟨9, 1, 100, 2, true, none, 1⟩⟩ 0 ("a") 7 =
      some (⟨[⟨0, ("a"), 5, 3⟩], [0, 1], ⟨9, 1, 100, 2, true, none, 1⟩⟩,
        [Out.sent 0 (Msg.outOfGuesses 9)]) := by
  decide

/-- Claim C2 (amended): the `max_guesses`-th non-matching guess yields the
Exhausted (`out_of_guesses`) reply; subsequent guesses by that player in the
same round are still processed rather than rejected — each increments the
attempts counter beyond `max_guesses`, and each non-matching one yields the
Exhausted reply again, with no score or round-state change. -/
theorem claim_c2_amended (fail : Nat → Bool) (now fuel : Nat) (st : ServerState)
    (ws : Nat) (pn : String) (g : Int) (p : Player)
    (hact : st.game_state.is_active = true)
    (hlk : lookupPlayer st.players pn = some p)
    (hg : ¬g = st.game_state.secret_number)
    (hmax : st.game_state.max_guesses ≤ p.guesses + 1) :
    handle_guess fail now fuel st ws pn g =
      some ({ st with players :=
          updatePlayer st.players pn (fun q => { q with guesses := p.guesses + 1 }) },
        sendTo fail ws (Msg.outOfGuesses st.game_state.secret_number)) ∧
    lookupPlayer (updatePlayer st.players pn
        (fun q => { q with guesses := p.guesses + 1 })) pn =
      some { p with guesses := p.guesses + 1 } :=
  ⟨handle_guess_exhaust fail now fuel st ws pn g p hact hlk hg hmax,
    lookup_updatePlayer_self (fun q => { q with guesses := p.guesses + 1 })
      (fun _ => rfl) hlk⟩

/-- Witness for the amended C2 at a concrete state (third guess with
`max_guesses = 2`). -/
theorem claim_c2_witness :
    handle_guess noFail 0 5
      ⟨[⟨0, ("b"), 1, 2⟩], [0], ⟨9, 1, 100, 2, true, none, 4⟩⟩ 0 ("b") 8 =
      some (⟨[⟨0, ("b"), 1, 3⟩], [0], ⟨9, 1, 100, 2, true, none, 4⟩⟩,
        [Out.sent 0 (Msg.outOfGuesses 9)]) := by
  have h := (claim_c2_amended noFail 0 5
    ⟨[⟨0, ("b"), 1, 2⟩], [0], ⟨9, 1, 100, 2, true, none, 4⟩⟩ 0 ("b") 8
    ⟨0, ("b"), 1, 2⟩ rfl (by decide) (by decide) (by decide)).1
  simpa using h

/-- Claim C3: a guess while the round is inactive returns the
round-inactive error to the sender and mutates nothing: the state is
returned unchanged. -/
theorem claim_c3_round_inactive (fail : Nat → Bool) (now fuel : Nat)
    (st : ServerState) (ws : Nat) (pn : String) (g : Int)
    (h : st.game_state.is_active = false) :
    handle_guess fail now fuel st ws pn g =
      some (st, sendTo fail ws (Msg.errorMsg ErrReason.notActive)) :=
  handle_guess_inactive fail now fuel st ws pn g h

/-- Witness for C3 at a concrete inactive state. -/
theorem claim_c3_witness :
    handle_guess noFail 0 3
      ⟨[⟨0, ("a"), 2, 1⟩], [0], ⟨50, 1, 100, 10, false, some ("a"), 2⟩⟩ 0 ("a") 7 =
      some (⟨[⟨0, ("a"), 2, 1⟩], [0], ⟨50, 1, 100, 10, false, some ("a"), 2⟩⟩,
        sendTo noFail 0 (Msg.errorMsg ErrReason.notActive)) :=
  claim_c3_round_inactive noFail 0 3 _ 0 ("a") 7 rfl

/-- Claim C5: after `start_new_round`, the attempt counter of every player is 0,
the round number has increased by exactly 1, the round is active, the
winner is cleared, and the installed secret lies within the range (given
that the drawn value does, which is the contract of `random.randint`). -/
theorem claim_c5_new_round (now fuel : Nat) (st : ServerState) (s : Int)
    (hmin : st.game_state.min_range ≤ s) (hmax : s ≤ st.game_state.max_range) :
    ∃ st2 outs, start_new_round noFail now (fuel + 2) st s = some (st2, outs) ∧
      st2.game_state.round_number = st.game_state.round_number + 1 ∧
      st2.game_state.is_active = true ∧
      st2.game_state.winner = none ∧
      st.game_state.min_range ≤ st2.game_state.secret_number ∧
      st2.game_state.secret_number ≤ st.game_state.max_range ∧
      (∀ p, p ∈ st2.players → p.guesses = 0) ∧
      st2.players.length = st.players.length := by
  rw [start_new_round, broadcastF_noFail]
  refine ⟨_, _, rfl, rfl, rfl, rfl, hmin, hmax, ?_, by simp⟩
  intro p hp
  simp only [List.mem_map] at hp
  obtain ⟨q, _, rfl⟩ := hp
  rfl

/-- Witness for C5 at a concrete state. -/
theorem claim_c5_witness :
    ∃ st2 outs,
      start_new_round noFail 3 6
        ⟨[⟨0, ("a"), 9, 4⟩], [0], ⟨50, 1, 100, 10, false, some ("a"), 2⟩⟩ 42 =
        some (st2, outs) ∧
      st2.game_state.round_number = 3 ∧
      st2.game_state.is_active = true ∧
      st2.game_state.winner = none ∧
      (1 : Int) ≤ st2.game_state.secret_number ∧
      st2.game_state.secret_number ≤ 100 ∧
      (∀ p, p ∈ st2.players → p.guesses = 0) ∧
      st2.players.length = 1 := by
  have h := claim_c5_new_round 3 4
    ⟨[⟨0, ("a"), 9, 4⟩], [0], ⟨50, 1, 100, 10, false, some ("a"), 2⟩⟩ 42
    (by decide) (by decide)
  simpa using h

/-- Claim C10: the attempt increment and any score award of a guess event
are applied to the player named in the event, for an arbitrary sending
socket `ws` (nothing ties `ws` to the own socket of that player), and the
direct outcome replies go to the socket of the sender, never to the one
of the named player. -/
theorem claim_c10_no_sender_check (now fuel : Nat) (st : ServerState) (ws : Nat)
    (pn : String) (g : Int) (p : Player)
    (hact : st.game_state.is_active = true)
    (hlk : lookupPlayer st.players pn = some p)
    (hconn : ¬st.connected_clients = []) :
    (g = st.game_state.secret_number →
      ∃ st2 outs, handle_guess noFail now (fuel + 2) st ws pn g = some (st2, outs) ∧
        lookupPlayer st2.players pn =
          some
            { p with
              guesses := p.guesses + 1,
              score := p.score + max 1 (st.game_state.max_guesses - (p.guesses + 1) + 1) } ∧
        (∀ w m2, Out.sent w m2 ∈ outs → w = ws)) ∧
    (¬g = st.game_state.secret_number → p.guesses + 1 < st.game_state.max_guesses →
      ∃ st2 outs, handle_guess noFail now (fuel + 2) st ws pn g = some (st2, outs) ∧
        lookupPlayer st2.players pn = some { p with guesses := p.guesses + 1 } ∧
        (∀ w m2, Out.sent w m2 ∈ outs → w = ws) ∧
        Out.sent ws (Msg.guessResult g
          (if st.game_state.secret_number < g then HintDir.tooHigh else HintDir.tooLow)
          (st.game_state.max_guesses - (p.guesses + 1))) ∈ outs) := by
  constructor
  · intro hg
    refine ⟨_, _, handle_guess_win now fuel st ws pn g p hact hlk hg hconn, ?_, ?_⟩
    · have h1 := lookup_updatePlayer_self (fun q => { q with guesses := p.guesses + 1 })
        (fun _ => rfl) hlk
      exact lookup_updatePlayer_self
        (fun q =>
          { q with score := q.score + max 1 (st.game_state.max_guesses - (p.guesses + 1) + 1) })
        (fun _ => rfl) h1
    · intro w m2 hm
      simp at hm
  · intro hg hlim
    refine ⟨_, _, handle_guess_hint now fuel st ws pn g p hact hlk hg hlim, ?_, ?_, ?_⟩
    · exact lookup_updatePlayer_self (fun q => { q with guesses := p.guesses + 1 })
        (fun _ => rfl) hlk
    · intro w m2 hm
      rcases List.mem_cons.mp hm with he | ht
      · injection he
      · by_cases hc : st.connected_clients = [] <;> simp [hc] at ht
    · exact List.mem_cons_self ..

/-- Witness for C10: socket 5 (not socket 0 of the named player) submits the
guess; the counter of player `a` is incremented and the only direct reply
goes to socket 5. -/
theorem claim_c10_witness :
    ¬(7 : Int) = 50 ∧ 1 + 1 < 10 ∧
    ∃ st2 outs,
      handle_guess noFail 0 3
        ⟨[⟨0, ("a"), 4, 1⟩], [0, 5], ⟨50, 1, 100, 10, true, none, 1⟩⟩ 5 ("a") 7 =
        some (st2, outs) ∧
      lookupPlayer st2.players ("a") = some ⟨0, ("a"), 4, 2⟩ ∧
      (∀ w m2, Out.sent w m2 ∈ outs → w = 5) ∧
      Out.sent 5 (Msg.guessResult 7 HintDir.tooLow 8) ∈ outs := by
  refine ⟨by decide, by decide, ?_⟩
  have h := (claim_c10_no_sender_check 0 1
    ⟨[⟨0, ("a"), 4, 1⟩], [0, 5], ⟨50, 1, 100, 10, true, none, 1⟩⟩ 5 ("a") 7
    ⟨0, ("a"), 4, 1⟩ rfl (by decide) (by decide)).2 (by decide) (by decide)
  simpa using h

theorem lookupPlayer_append_new {ps : List Player} {n : String}
    (h : n ∉ namesOf ps) (newP : Player) (he : newP.name = n) :
    lookupPlayer (ps ++ [newP]) n = some newP := by
  induction ps with
  | nil => simp [lookupPlayer, he]
  | cons q qs ih =>
    have hq : ¬q.name = n := fun hx => h (mem_namesOf.mpr ⟨q, List.mem_cons_self .., hx⟩)
    rw [List.cons_append, lookupPlayer, if_neg hq]
    exact ih fun hx => h (namesOf_subset_of_sublist (List.sublist_cons_self q qs) _ hx)

/-- Claim C4: joins with pairwise-distinct fresh names grow the directory by
exactly one player each, so the directory size equals the number of joins;
a join with a taken name replies with the name-conflict error and changes
nothing at all; a successful join creates the player with score 0 and
attempts 0 and registers the socket. -/
theorem claim_c4_joins :
    (∀ (joins : List (Nat × String)) (st : ServerState) (now fuel : Nat),
      (joins.map Prod.snd).Nodup →
      (∀ pr, pr ∈ joins → pr.2 ∉ namesOf st.players) →
      ∃ st2, runJoins noFail now (fuel + 2) st joins = some st2 ∧
        st2.players.length = st.players.length + joins.length) ∧
    (∀ (fail : Nat → Bool) (now fuel : Nat) (st : ServerState) (ws : Nat) (n : String),
      n ∈ namesOf st.players →
      register_player fail now fuel st ws n =
        some (st, sendTo fail ws (Msg.errorMsg ErrReason.nameTaken), false)) ∧
    (∀ (now fuel : Nat) (st : ServerState) (ws : Nat) (n : String),
      n ∉ namesOf st.players →
      ∃ st2 outs, register_player noFail now (fuel + 2) st ws n = some (st2, outs, true) ∧
        st2.players = st.players ++ [{ websocket := ws, name := n, score := 0, guesses := 0 }] ∧
        lookupPlayer st2.players n =
          some { websocket := ws, name := n, score := 0, guesses := 0 } ∧
        ws ∈ st2.connected_clients) := by
  refine ⟨?_, ?_, ?_⟩
  · intro joins
    induction joins with
    | nil =>
      intro st now fuel _ _
      refine ⟨st, ?_, by simp⟩
      rw [runJoins]
    | cons hd tl ih =>
      intro st now fuel hnd hf
      obtain ⟨ws, n⟩ := hd
      rw [List.map_cons, List.nodup_cons] at hnd
      have hn : n ∉ namesOf st.players := hf (ws, n) (List.mem_cons_self ..)
      obtain ⟨outs, heq⟩ := register_fresh now fuel st ws n hn
      rw [runJoins, heq]
      have hnames : namesOf (st.players ++
          [{ websocket := ws, name := n, score := 0, guesses := 0 }]) =
          namesOf st.players ++ [n] := by
        simp [namesOf]
      have hf2 : ∀ pr, pr ∈ tl → pr.2 ∉ namesOf (st.players ++
          [{ websocket := ws, name := n, score := 0, guesses := 0 }]) := by
        intro pr hpr hmem
        rw [hnames, List.mem_append] at hmem
        rcases hmem with hm | hm
        · exact hf pr (List.mem_cons_of_mem _ hpr) hm
        · rw [List.mem_singleton] at hm
          have hmm : pr.2 ∈ tl.map Prod.snd := List.mem_map_of_mem Prod.snd hpr
          rw [hm] at hmm
          exact hnd.1 hmm
      obtain ⟨st2, hrun, hlen⟩ := ih
        { st with
          players := st.players ++ [{ websocket := ws, name := n, score := 0, guesses := 0 }],
          connected_clients := if ws ∈ st.connected_clients then st.connected_clients
            else st.connected_clients ++ [ws] } now fuel hnd.2 hf2
      refine ⟨st2, hrun, ?_⟩
      simp only [List.length_append, List.length_singleton] at hlen
      simp [hlen]
      omega
  · intro fail now fuel st ws n h
    exact register_taken fail now fuel st ws n h
  · intro now fuel st ws n h
    obtain ⟨outs, heq⟩ := register_fresh now fuel st ws n h
    refine ⟨_, outs, heq, rfl, ?_, ?_⟩
    · exact lookupPlayer_append_new h _ rfl
    · by_cases hw : ws ∈ st.connected_clients
      · simp [hw]
      · simp [hw]

/-- Witness for C4: two distinct joins into an empty directory give size 2;
a third join re-using a name is rejected with no state change; the created
player has score 0 and attempts 0. -/
theorem claim_c4_witness :
    (∃ st2, runJoins noFail 0 3 ⟨[], [], ⟨50, 1, 100, 10, true, none, 1⟩⟩
        [(0, ("a")), (1, ("b"))] = some st2 ∧ st2.players.length = 0 + 2) ∧
    register_player noFail 0 3 ⟨[⟨0, ("a"), 0, 0⟩], [0], ⟨50, 1, 100, 10, true, none, 1⟩⟩
        1 ("a") =
      some (⟨[⟨0, ("a"), 0, 0⟩], [0], ⟨50, 1, 100, 10, true, none, 1⟩⟩,
        sendTo noFail 1 (Msg.errorMsg ErrReason.nameTaken), false) ∧
    (∃ st2 outs,
      register_player noFail 0 3 ⟨[], [], ⟨50, 1, 100, 10, true, none, 1⟩⟩ 0 ("a") =
        some (st2, outs, true) ∧
      st2.players = [] ++ [⟨0, ("a"), 0, 0⟩] ∧
      lookupPlayer st2.players ("a") = some ⟨0, ("a"), 0, 0⟩ ∧
      0 ∈ st2.connected_clients) := by
  refine ⟨?_, ?_, ?_⟩
  · exact claim_c4_joins.1 [(0, ("a")), (1, ("b"))]
      ⟨[], [], ⟨50, 1, 100, 10, true, none, 1⟩⟩ 0 1 (by decide) (by decide)
  · exact claim_c4_joins.2.1 noFail 0 3
      ⟨[⟨0, ("a"), 0, 0⟩], [0], ⟨50, 1, 100, 10, true, none, 1⟩⟩ 1 ("a") (by decide)
  · exact claim_c4_joins.2.2 0 1 ⟨[], [], ⟨50, 1, 100, 10, true, none, 1⟩⟩ 0 ("a")
      (by decide)

/-- Claim C8: the state snapshot carries `leaderboard`, which is always
sorted by score descending; ties keep the directory (insertion) order —
stability is expressed by score-class filtering: for every score value the
leaderboard lists exactly the directory players of that score, in
directory order. -/
theorem claim_c8_leaderboard :
    (∀ (fail : Nat → Bool) (st : ServerState) (ws : Nat),
      send_game_state fail st ws = sendTo fail ws
        (Msg.gameStateMsg st.game_state.round_number st.game_state.is_active
          (leaderboard st.players) st.players.length)) ∧
    (∀ st : ServerState,
      (leaderboard st.players).Pairwise (fun a b => b.2 ≤ a.2)) ∧
    (∀ (st : ServerState) (c : Nat),
      (leaderboard st.players).filter (fun x => x.2 == c) =
        (st.players.map fun p => (p.name, p.score)).filter (fun x => x.2 == c)) := by
  refine ⟨fun _ _ _ => rfl, fun st => sortDesc_pairwise _, fun st c => filter_sortDesc _ _⟩

theorem nodupNames_append_fresh {ps : List Player} {newP : Player}
    (h : NodupNames ps) (hn : newP.name ∉ namesOf ps) : NodupNames (ps ++ [newP]) := by
  unfold NodupNames at *
  have he : namesOf (ps ++ [newP]) = namesOf ps ++ [newP.name] := by simp [namesOf]
  rw [he, List.nodup_append]
  refine ⟨h, List.nodup_singleton _, ?_⟩
  intro x hx hx2
  rw [List.mem_singleton] at hx2
  exact hn (hx2 ▸ hx)

theorem nodupNames_updatePlayer {ps : List Player} {n : String} (f : Player → Player)
    (hf : ∀ q, (f q).name = q.name) (h : NodupNames ps) :
    NodupNames (updatePlayer ps n f) := by
  unfold NodupNames
  have he : namesOf (updatePlayer ps n f) = namesOf ps := by
    unfold updatePlayer
    refine namesOf_map_pres _ ?_
    intro q
    by_cases hq : q.name = n
    · simp [hq, hf]
    · simp [hq]
  rw [he]
  exact h

theorem broadcast_round_nodup {fail : Nat → Bool} {now fuel : Nat} {st : ServerState}
    {excl : Option Nat} {m : Msg} {st2 : ServerState} {outs : List Out}
    (h : broadcastF fail now fuel st excl m = some (st2, outs)) :
    st2.game_state = st.game_state ∧ st2.players.Sublist st.players := by
  have he := (stateEvo fail now fuel).2.1 _ _ _ _ h
  exact ⟨he.1, he.2.1⟩

theorem remove_round_nodup {fail : Nat → Bool} {now fuel : Nat} {st : ServerState}
    {ws : Nat} {st2 : ServerState} {outs : List Out}
    (h : removePlayerF fail now fuel st ws = some (st2, outs)) :
    st2.game_state = st.game_state ∧ st2.players.Sublist st.players := by
  have he := (stateEvo fail now fuel).1 _ _ _ h
  exact ⟨he.1, he.2.1⟩

theorem c9IdAux {st st2 : ServerState} {X outs : List Out}
    (h : (some (st, X) : Option (ServerState × List Out)) = some (st2, outs)) :
    st.game_state.round_number ≤ st2.game_state.round_number ∧
      (NodupNames st.players → NodupNames st2.players) := by
  injection h with h
  injection h with h1 h2
  subst h1
  exact ⟨Nat.le_refl _, fun x => x⟩

/-- Evolution facts of `register_player` under an arbitrary failure oracle:
the game state is untouched and name uniqueness is preserved. -/
theorem register_evo (fail : Nat → Bool) (now fuel : Nat) (st : ServerState)
    (ws : Nat) (n : String) (st2 : ServerState) (outs : List Out) (b : Bool)
    (h : register_player fail now fuel st ws n = some (st2, outs, b)) :
    st2.game_state = st.game_state ∧ (NodupNames st.players → NodupNames st2.players) := by
  rw [register_player] at h
  split at h
  · injection h with h
    injection h with h1 h2
    subst h1
    exact ⟨rfl, fun x => x⟩
  · rename_i ha
    dsimp only at h
    by_cases hconn : ws ∈ st.connected_clients
    · rw [if_pos hconn] at h
      split at h
      · exact Option.noConfusion h
      · rename_i st3 o2 hb
        injection h with h
        injection h with h1 h2
        subst h1
        obtain ⟨hg, hsub⟩ := broadcast_round_nodup hb
        refine ⟨by rw [hg], ?_⟩
        intro hnd
        refine nodupNames_of_sublist hsub ?_
        refine nodupNames_append_fresh hnd ?_
        exact fun hx => ha (any_name_iff.mpr hx)
    · rw [if_neg hconn] at h
      split at h
      · exact Option.noConfusion h
      · rename_i st3 o2 hb
        injection h with h
        injection h with h1 h2
        subst h1
        obtain ⟨hg, hsub⟩ := broadcast_round_nodup hb
        refine ⟨by rw [hg], ?_⟩
        intro hnd
        refine nodupNames_of_sublist hsub ?_
        refine nodupNames_append_fresh hnd ?_
        exact fun hx => ha (any_name_iff.mpr hx)

/-- Evolution facts of `handle_guess` under an arbitrary failure oracle:
the round number is untouched and name uniqueness is preserved. -/
theorem handle_guess_evo (fail : Nat → Bool) (now fuel : Nat) (st : ServerState)
    (ws : Nat) (pn : String) (g : Int) (st2 : ServerState) (outs : List Out)
    (h : handle_guess fail now fuel st ws pn g = some (st2, outs)) :
    st2.game_state.round_number = st.game_state.round_number ∧
      (NodupNames st.players → NodupNames st2.players) := by
  rw [handle_guess] at h
  split at h
  · injection h with h
    injection h with h1 h2
    subst h1
    exact ⟨rfl, fun x => x⟩
  · split at h
    · injection h with h
      injection h with h1 h2
      subst h1
      exact ⟨rfl, fun x => x⟩
    · rename_i p hlk
      dsimp only at h
      by_cases hsec : g = st.game_state.secret_number
      · rw [if_pos hsec] at h
        obtain ⟨hg, hsub⟩ := broadcast_round_nodup h
        constructor
        · rw [hg]
        · intro hnd
          refine nodupNames_of_sublist hsub ?_
          exact nodupNames_updatePlayer _ (fun _ => rfl)
            (nodupNames_updatePlayer _ (fun _ => rfl) hnd)
      · rw [if_neg hsec] at h
        by_cases hmax : st.game_state.max_guesses ≤ p.guesses + 1
        · rw [if_pos hmax] at h
          injection h with h
          injection h with h1 h2
          subst h1
          exact ⟨rfl, nodupNames_updatePlayer _ (fun _ => rfl)⟩
        · rw [if_neg hmax] at h
          by_cases hdir : st.game_state.secret_number < g
          · rw [if_pos hdir] at h
            split at h
            · exact Option.noConfusion h
            · rename_i st3 o2 hb
              injection h with h
              injection h with h1 h2
              subst h1
              obtain ⟨hg, hsub⟩ := broadcast_round_nodup hb
              exact ⟨by rw [hg], fun hnd =>
                nodupNames_of_sublist hsub (nodupNames_updatePlayer _ (fun _ => rfl) hnd)⟩
          · rw [if_neg hdir] at h
            split at h
            · exact Option.noConfusion h
            · rename_i st3 o2 hb
              injection h with h
              injection h with h1 h2
              subst h1
              obtain ⟨hg, hsub⟩ := broadcast_round_nodup hb
              exact ⟨by rw [hg], fun hnd =>
                nodupNames_of_sublist hsub (nodupNames_updatePlayer _ (fun _ => rfl) hnd)⟩

/-- Claim C9: across every coordinator operation (join, leave, guess
processing, deferred new-round start, state query, malformed input,
channel close), the round number never decreases and at-most-one-player-
per-name (no duplicate directory keys) is preserved. -/
theorem claim_c9_round_monotone_names_unique (fail : Nat → Bool) (now fuel : Nat)
    (st st2 : ServerState) (outs : List Out) (op : CoordOp)
    (h : coordStep fail now fuel st op = some (st2, outs)) :
    st.game_state.round_number ≤ st2.game_state.round_number ∧
      (NodupNames st.players → NodupNames st2.players) := by
  cases op with
  | newRound s =>
    rw [coordStep, start_new_round] at h
    obtain ⟨hg, hsub⟩ := broadcast_round_nodup h
    constructor
    · rw [hg]
      exact Nat.le_succ _
    · intro hnd
      refine nodupNames_of_sublist hsub ?_
      unfold NodupNames
      rw [namesOf_map_pres (fun p => { p with guesses := 0 }) (fun _ => rfl)]
      exact hnd
  | ev ws e =>
    cases e with
    | join n =>
      rw [coordStep, handle_event] at h
      split at h
      · exact c9IdAux h
      · split at h
        · exact Option.noConfusion h
        · rename_i st3 o3 b hreg
          injection h with h
          injection h with h1 h2
          subst h1
          obtain ⟨hg, hnd⟩ := register_evo fail now fuel st ws _ _ _ _ hreg
          exact ⟨by rw [hg], hnd⟩
    | guessEv player v =>
      rw [coordStep, handle_event] at h
      split at h
      · obtain ⟨hg, hnd⟩ := handle_guess_evo fail now fuel st ws player v st2 outs h
        exact ⟨Nat.le_of_eq hg.symm, hnd⟩
      · exact c9IdAux h
    | guessNonInt pl =>
      rw [coordStep, handle_event] at h
      exact c9IdAux h
    | getState =>
      rw [coordStep, handle_event] at h
      exact c9IdAux h
    | badPayload =>
      rw [coordStep, handle_event] at h
      exact c9IdAux h
    | unknownAction =>
      rw [coordStep, handle_event] at h
      exact c9IdAux h
    | close =>
      rw [coordStep, handle_event] at h
      obtain ⟨hg, hsub⟩ := remove_round_nodup h
      exact ⟨by rw [hg], fun hnd => nodupNames_of_sublist hsub hnd⟩

/-- Witness for C9 at a concrete operation: a winning guess leaves the
round number unchanged and the directory keys distinct. -/
theorem claim_c9_witness :
    coordStep noFail 0 9 ⟨[⟨0, ("a"), 0, 0⟩], [0], ⟨7, 1, 100, 10, true, none, 3⟩⟩
          (CoordOp.ev 0 (Event.guessEv ("a") 7)) =
        some (⟨[⟨0, ("a"), 10, 1⟩], [0],
          ⟨7, 1, 100, 10, false, some ("a"), 3⟩⟩,
          [Out.broadcastEv (Msg.gameWon ("a") 7 1 10) 0 [0]]) ∧
    (3 ≤ 3 ∧ (NodupNames [⟨0, ("a"), 0, 0⟩] →
      NodupNames [Player.mk 0 ("a") 10 1])) := by
  constructor
  · decide
  · exact claim_c9_round_monotone_names_unique noFail 0 9
      ⟨[⟨0, ("a"), 0, 0⟩], [0], ⟨7, 1, 100, 10, true, none, 3⟩⟩
      ⟨[⟨0, ("a"), 10, 1⟩], [0], ⟨7, 1, 100, 10, false, some ("a"), 3⟩⟩
      [Out.broadcastEv (Msg.gameWon ("a") 7 1 10) 0 [0]]
      (CoordOp.ev 0 (Event.guessEv ("a") 7)) (by decide)

/-- Claim C6 counterexample: a connection (socket 0) that never joined — the
Connected session state — closes; `remove_player` runs and drops the socket
from the registry, but the output trace is empty: no `player_left`
broadcast occurs, although the claim requires one `player_left` broadcast
regardless of which state the connection was in. -/
theorem claim_c6_counterexample :
    removePlayerF noFail 0 5 ⟨[], [0, 1], ⟨50, 1, 100, 10, true, none, 1⟩⟩ 0 =
      some (⟨[], [1], ⟨50, 1, 100, 10, true, none, 1⟩⟩, []) := by
  decide

/-- Claim C6 (amended): on channel close `remove_player` runs once; if a
player is bound to the socket, it is removed from the directory and exactly
one `player_left` broadcast pass is issued for it (when other clients
remain connected; with an empty remaining registry the pass is skipped); a
connection with no bound player is dropped from the registry with no
`player_left` broadcast; and a repeated removal of the same socket (given
one player per socket) broadcasts nothing further and removes nothing
further. -/
theorem claim_c6_amended :
    (∀ (fail : Nat → Bool) (now fuel : Nat) (st : ServerState) (ws : Nat)
        (st2 : ServerState) (outs : List Out) (nm : String),
      findByWs st.players ws = some nm →
      removePlayerF fail now fuel st ws = some (st2, outs) →
      ¬st.connected_clients.filter (fun c => c != ws) = [] →
      cPL nm outs = 1 ∧ nm ∉ namesOf st2.players ∧ ws ∉ st2.connected_clients) ∧
    (∀ (fail : Nat → Bool) (now fuel : Nat) (st : ServerState) (ws : Nat)
        (st2 : ServerState) (outs : List Out),
      findByWs st.players ws = none →
      removePlayerF fail now fuel st ws = some (st2, outs) →
      outs = [] ∧ st2.players = st.players ∧ ws ∉ st2.connected_clients) ∧
    (∀ (fail : Nat → Bool) (now fuel fuel2 : Nat) (st : ServerState) (ws : Nat)
        (st2 : ServerState) (outs : List Out) (st3 : ServerState) (outs2 : List Out),
      UniqueWs st.players →
      removePlayerF fail now fuel st ws = some (st2, outs) →
      removePlayerF fail now fuel2 st2 ws = some (st3, outs2) →
      outs2 = [] ∧ st3.players = st2.players) := by
  refine ⟨?_, ?_, ?_⟩
  · intro fail now fuel st ws st2 outs nm hf h hconn
    cases fuel with
    | zero => exact Option.noConfusion h
    | succ fu =>
      rw [removePlayerF] at h
      simp only [hf] at h
      have hout : nm ∉ namesOf (st.players.filter fun p => p.name != nm) :=
        namesOf_filter_not_self _ _
      have hevo := broadcast_round_nodup h
      cases fu with
      | zero => exact Option.noConfusion h
      | succ v =>
        rw [broadcastF] at h
        split at h
        · rename_i hemp
          exact absurd hemp hconn
        · dsimp only at h
          split at h
          · exact Option.noConfusion h
          · rename_i st4 o4 hra
            injection h with h
            injection h with h1 h2
            subst h1
            subst h2
            refine ⟨?_, ?_, ?_⟩
            · rw [cPL_broadcast_cons]
              have hplh : plh nm (Msg.playerLeft nm
                  (st.players.filter fun p => p.name != nm).length) = 1 := by
                simp [plh]
              have hc4 := (plCount fail now v).2.2 _ _ _ hra nm
              have hc4a : cPL nm o4 ≤ 1 := hc4.1
              have hc4b : 1 ≤ cPL nm o4 →
                  nm ∈ namesOf (st.players.filter fun p => p.name != nm) := fun hx =>
                (hc4.2 hx).1
              have hc0 : cPL nm o4 = 0 := by
                by_contra hb
                exact hout (hc4b (by omega))
              rw [hplh, hc0]
            · intro hmem
              have hsub2 := (stateEvo fail now v).2.2 _ _ _ hra
              exact hout (namesOf_subset_of_sublist hsub2.2.1 _ hmem)
            · have hsub2 := (stateEvo fail now v).2.2 _ _ _ hra
              exact not_mem_of_sublist hsub2.2.2 (not_mem_filter_bne _ _)
  · intro fail now fuel st ws st2 outs hf h
    cases fuel with
    | zero => exact Option.noConfusion h
    | succ fu =>
      rw [removePlayerF] at h
      simp only [hf] at h
      injection h with h
      injection h with h1 h2
      subst h1
      subst h2
      exact ⟨rfl, rfl, not_mem_filter_bne _ _⟩
  · intro fail now fuel fuel2 st ws st2 outs st3 outs2 hu h1 h2
    have hnone : findByWs st2.players ws = none := by
      cases hf2 : findByWs st2.players ws with
      | none => rfl
      | some nm2 =>
        obtain ⟨q, hq, hqn, hqw⟩ := findByWs_some hf2
        have hsub : st2.players.Sublist st.players := (remove_round_nodup h1).2
        have hrg := (removalGuar fail now fuel).1 _ _ _ h1
        have hqout : q.name ∉ namesOf st2.players := hrg.2 hu q (hsub.subset hq) hqw
        exact absurd (mem_namesOf.mpr ⟨q, hq, rfl⟩) hqout
    cases fuel2 with
    | zero => exact Option.noConfusion h2
    | succ fu2 =>
      rw [removePlayerF] at h2
      simp only [hnone] at h2
      injection h2 with h2
      injection h2 with h1 h2
      subst h1
      subst h2
      exact ⟨rfl, rfl⟩

/-- Witness for the amended C6: socket 0 is bound to player `a`; its close
removes the player and yields exactly one `player_left` broadcast pass. -/
theorem claim_c6_witness :
    cPL ("a") [Out.broadcastEv (Msg.playerLeft ("a") 0) 0 [1]] = 1 ∧
    ("a") ∉ namesOf ([] : List Player) ∧
    0 ∉ ([1] : List Nat) := by
  exact claim_c6_amended.1 noFail 0 5
    ⟨[⟨0, ("a"), 3, 1⟩], [0, 1], ⟨9, 1, 100, 10, true, none, 1⟩⟩ 0
    ⟨[], [1], ⟨9, 1, 100, 10, true, none, 1⟩⟩
    [Out.broadcastEv (Msg.playerLeft ("a") 0) 0 [1]]
    ("a") (by decide) (by decide) (by decide)

theorem uniqueWs_singleton (p : Player) : UniqueWs [p] := by
  intro a ha b hb _
  rw [List.mem_singleton] at ha hb
  rw [ha, hb]

/-- Claim C7: one `broadcast_message` pass stamps the event with the current
time and delivers it, before any cleanup output, to exactly the registered
sockets that are neither excluded nor failed (in registry order); every
non-excluded failed socket is collected and removed from the registry, its
bound player is removed from the directory, each cleanup `player_left`
broadcast names a player whose socket failed, and the recursive cleanup
terminates: `fuelBound (phi st)` fuel returns a result, because a socket
removed once cannot fail again in the same pass. -/
theorem claim_c7_broadcast_fanout (fail : Nat → Bool) (now : Nat) (st : ServerState)
    (excl : Option Nat) (m : Msg)
    (hconn : ¬st.connected_clients = [])
    (hnod : NodupNames st.players) (hu : UniqueWs st.players)
    (hbound : ∀ p, p ∈ st.players → p.websocket ∈ st.connected_clients) :
    ∃ st2 cleanup,
      broadcastF fail now (fuelBound (phi st)) st excl m =
        some (st2, Out.broadcastEv m now
          ((st.connected_clients.filter (fun w => excl != some w)).filter
            (fun w => !fail w)) :: cleanup) ∧
      (∀ w, w ∈ st.connected_clients → fail w = true → ¬excl = some w →
        w ∉ st2.connected_clients) ∧
      (∀ p, p ∈ st.players → fail p.websocket = true → ¬excl = some p.websocket →
        p.name ∉ namesOf st2.players) ∧
      (∀ n, n ∈ plNames cleanup →
        ∃ p, p ∈ st.players ∧ p.name = n ∧ fail p.websocket = true) := by
  have hS := (adequacy fail now (phi st) st (Nat.le_refl _)).2.2 excl m
    (fuelBound (phi st)) (Nat.le_refl _)
  obtain ⟨r, hr⟩ := Option.isSome_iff_exists.mp hS
  obtain ⟨st2, outs⟩ := r
  have hrOrig := hr
  have h2 := fuelBound_ge_two (phi st)
  obtain ⟨u, hu2⟩ : ∃ u, fuelBound (phi st) = u + 1 := ⟨fuelBound (phi st) - 1, by omega⟩
  rw [hu2] at hr
  rw [broadcastF] at hr
  rw [if_neg hconn] at hr
  dsimp only at hr
  split at hr
  · exact Option.noConfusion hr
  · rename_i st3 o3 hra
    injection hr with hr
    injection hr with hr1 hr2
    subst hr1
    subst hr2
    refine ⟨st3, o3, ?_, ?_, ?_, ?_⟩
    · rw [hu2, broadcastF, if_neg hconn]
      dsimp only
      rw [hra]
    · intro w hw hwf hwe
      have hrg := (removalGuar fail now (fuelBound (phi st))).2.1 _ _ _ _ hrOrig
        hnod hu w hw hwf hwe
      exact hrg.1
    · intro p hp hpf hpe
      have hrg := (removalGuar fail now (fuelBound (phi st))).2.1 _ _ _ _ hrOrig
        hnod hu p.websocket (hbound p hp) hpf hpe
      exact hrg.2 p hp rfl
    · intro n hn
      refine (plSource fail now u).2.2 _ _ _ hra ?_ n hn
      intro w hw
      exact (List.mem_filter.mp hw).2

/-- Witness for C7: two sockets, socket 1 (bound to player `b`) is stale;
the pass delivers to socket 0 only, then removes socket 1 and player `b`
with one cleanup `player_left` broadcast. -/
theorem claim_c7_witness :
    ∃ st2 cleanup,
      broadcastF (fun w => w == 1) 5
          (fuelBound (phi ⟨[⟨1, ("b"), 2, 0⟩], [0, 1], ⟨9, 1, 100, 10, true, none, 1⟩⟩))
          ⟨[⟨1, ("b"), 2, 0⟩], [0, 1], ⟨9, 1, 100, 10, true, none, 1⟩⟩
          none (Msg.newRound 2) =
        some (st2, Out.broadcastEv (Msg.newRound 2) 5
          ((([0, 1] : List Nat).filter (fun w => (none : Option Nat) != some w)).filter
            (fun w => !(w == 1))) :: cleanup) ∧
      (∀ w, w ∈ ([0, 1] : List Nat) → (w == 1) = true → ¬(none : Option Nat) = some w →
        w ∉ st2.connected_clients) ∧
      (∀ p, p ∈ [(⟨1, ("b"), 2, 0⟩ : Player)] → (p.websocket == 1) = true →
        ¬(none : Option Nat) = some p.websocket → p.name ∉ namesOf st2.players) ∧
      (∀ n, n ∈ plNames cleanup →
        ∃ p, p ∈ [(⟨1, ("b"), 2, 0⟩ : Player)] ∧ p.name = n ∧ (p.websocket == 1) = true) := by
  exact claim_c7_broadcast_fanout (fun w => w == 1) 5
    ⟨[⟨1, ("b"), 2, 0⟩], [0, 1], ⟨9, 1, 100, 10, true, none, 1⟩⟩ none (Msg.newRound 2)
    (by decide) (by unfold NodupNames; decide) (uniqueWs_singleton _)
    (by
      intro p hp
      rw [List.mem_singleton] at hp
      rw [hp]
      decide)
